import Mathlib

/-!
Verification of the core virtual machine implemented in `vm/src/vm.rs`.

The development shallowly embeds the data model and the operations of the
interpreter:

* `Value` / `Callable` mirror `enum Value` and `enum Callable`;
* `valueEq` mirrors the (partly derived, partly hand written) `PartialEq`
  instances on `Value` and the heap object types;
* `call_function_with_upvars`, `do_call`, `execute_callable` mirror the
  calling convention, `execute_return` the return path at the end of
  `execute_`, `execute_function_finish` the foreign-call bridge after the
  host callback returned, and `tail_call` the `TailCall` arm of `execute_`;
* `execInstr` mirrors one iteration of the dispatch loop of `execute_`;
* `set_global` and `get_global` mirror the global environment.

Machine integers (`VMInt = isize`) are modelled as unbounded `Int` (no claim
under study concerns overflow).  `f64` payloads are carried as an opaque
content word (`Int`) and the host float arithmetic is abstracted into the
context, following the spec's "division by zero is host-defined".  The
evaluation stack of `stack.rs` (not part of the sources) is modelled from the
spec, section 4.C: a frame-relative list of values growing to the right,
`push`/`pop` at the right end, `insert_slice`/`remove_range` by `take`/`drop`.
Rust panics (slice and index out of bounds, `panic!`, failed asserts,
arithmetic aborts) are modelled by a dedicated `panic` constructor in each
result type, kept distinct from the `Err` results of type `vm::Error`.
-/

/-- A `GcPtr<BytecodeFunction>`: identity of the function object together with
its arity (`BytecodeFunction::args`).  Instructions, inner functions and the
string pool are supplied separately where an operation needs them. -/
structure FuncRef where
  ptr : Nat
  args : Nat
  deriving DecidableEq

mutual

/-- Mirrors `enum Value` of vm.rs.  Heap pointers are modelled by `Nat`
identities where only identity matters (`userdata`, `lazy`, `thread`,
extern functions); `data`, `closure` and `papp` (PartialApplication) carry
their pointee contents, since the interpreter reads through the pointer. -/
inductive Value where
  | int (n : Int)
  | float (bits : Int)
  | str (s : String)
  | data (tag : Nat) (fields : List Value)
  | function (ptr : Nat) (args : Nat)
  | closure (fn : FuncRef) (upvars : List Value)
  | papp (fn : Callable) (bound : List Value)
  | userdata (ptr : Nat)
  | lazy (ptr : Nat)
  | thread (ptr : Nat)

/-- Mirrors `enum Callable` of vm.rs: the two-variant closed sum of a closure
(`GcPtr<ClosureData>`, i.e. a bytecode function plus captured upvars) and an
extern function (`GcPtr<ExternFunction>`, identity plus arity). -/
inductive Callable where
  | closure (fn : FuncRef) (upvars : List Value)
  | ext (ptr : Nat) (args : Nat)

end

/-- `Callable::args` of vm.rs. -/
def Callable.args : Callable → Nat
  | .closure fn _ => fn.args
  | .ext _ a => a

/-- The `Value` a `Callable` came from in `do_call` (the dispatch in
`do_call` matches `Function`/`Closure` stack values and wraps them). -/
def Callable.toValue : Callable → Value
  | .closure fn ups => .closure fn ups
  | .ext p a => .function p a

/-- Whether a value is a `Data` variant. -/
def Value.isData : Value → Bool
  | .data _ _ => true
  | _ => false

mutual

/-- Structural equality on `Value`, mirroring `#[derive(PartialEq)]` on
`Value` together with the manual impls in the sources: `DataStruct::eq`
(tag and fields), `ClosureData::eq`, `PartialApplicationData::eq` and
`ExternFunction::eq` (constantly false), `Userdata_::eq` and `Thread::eq`
(pointer identity), and content comparison for scalars.  `GcPtr` equality
(gc.rs is not among the sources) is modelled from the spec as comparing the
pointees; `String` content equality and `Lazy` being unequal to everything
are likewise modelled from the spec, section 4.B, their sources (array.rs,
lazy.rs) not being available. -/
def valueEq : Value → Value → Bool
  | .int a, .int b => a == b
  | .float a, .float b => a == b
  | .str a, .str b => a == b
  | .data t1 f1, .data t2 f2 => t1 == t2 && valueListEq f1 f2
  | .function _ _, .function _ _ => false
  | .closure _ _, .closure _ _ => false
  | .papp _ _, .papp _ _ => false
  | .userdata p, .userdata q => p == q
  | .lazy _, .lazy _ => false
  | .thread p, .thread q => p == q
  | _, _ => false

/-- Elementwise equality of `Array<Cell<Value>>` contents (equal length and
pairwise `valueEq`). -/
def valueListEq : List Value → List Value → Bool
  | [], [] => true
  | a :: as_, b :: bs => valueEq a b && valueListEq as_ bs
  | _, _ => false

end

/-- Mirrors `enum Error` of vm.rs, a single `Message(String)` kind.  The
constructors other than `message` stand for `Error::Message` values whose
text is produced with `format!` interpolating a `Value` by its `Debug`
rendering; the offending values are kept structurally since `Debug`
formatting is not modelled. -/
inductive VMError where
  | message (s : String)
  | cannotCall (v : Value)
  | getFieldOn (v : Value)
  | testTagNonData
  | splitNonData
  | getIndexInvalid (x y : Value)
  | setIndexInvalid (x y : Value)

/-- Mirrors `enum Status` of the foreign-call bridge. -/
inductive Status where
  | ok
  | error

/-- Result of resolving a call: either a callee frame is entered (with the
frame's `excess` flag), or a value (the partial application) was pushed and
control stays in the caller, or the call failed, or the VM panicked. -/
inductive CallResult where
  | enter (stack : List Value) (callable : Callable) (excess : Bool)
  | push (stack : List Value)
  | err (e : VMError)
  | panic

/-- Mirrors `VM::execute_callable`.  For a closure the new frame's `excess`
flag is set from the argument; for an extern the code asserts the stack shape
and enters the scope *without* setting the flag (the `excess` parameter is
ignored in that arm), so the extern frame keeps the default `false`. -/
def execute_callable (s : List Value) (c : Callable) (excess : Bool) : CallResult :=
  match c with
  | .closure _ _ => .enter s c excess
  | .ext _ arity => if s.length < arity + 1 then .panic else .enter s c false

/-- Mirrors `VM::call_function_with_upvars`: compare the supplied argument
count with the callable's arity; on equality enter the callee, on
under-application capture the arguments in a `PartialApplication` (popping
the arguments and the callable slot and pushing the application), on
over-application bundle the top `args - required` values into a `Data` with
tag 0, pop them, insert the bundle one slot below the callable and enter the
callee with `excess = true`. -/
def call_function_with_upvars (s : List Value) (args required : Nat) (c : Callable) :
    CallResult :=
  if args = required then
    execute_callable s c false
  else if args < required then
    let fields := s.drop (s.length - args)
    let app := Value.papp c fields
    .push (s.take (s.length - (args + 1)) ++ [app])
  else
    let excess := args - required
    let fields := s.drop (s.length - excess)
    let d := Value.data 0 fields
    let s1 := s.take (s.length - excess)
    let offset := s1.length - required - 1
    execute_callable (s1.take offset ++ d :: s1.drop offset) c true

/-- Mirrors `VM::do_call`: the callable sits at `stack.len() - args - 1`.
`Function` and `Closure` values dispatch with their intrinsic arity; a
`PartialApplication` splices its bound arguments into the stack just above
the application itself and dispatches the inner callable with
`bound.len() + args` arguments; anything else is a "Cannot call" error. -/
def do_call (s : List Value) (args : Nat) : CallResult :=
  if s.length < args + 1 then .panic
  else
    match s.get? (s.length - 1 - args) with
    | some (Value.function p a) =>
        call_function_with_upvars s args a (.ext p a)
    | some (Value.closure fn ups) =>
        call_function_with_upvars s args fn.args (.closure fn ups)
    | some (Value.papp fn bound) =>
        let total := bound.length + args
        let offset := s.length - args
        call_function_with_upvars (s.take offset ++ bound ++ s.drop offset) total fn.args fn
    | some x => .err (.cannotCall x)
    | none => .panic

/-- Result of the return path at the end of `execute_`. -/
inductive ReturnResult where
  | normal (stack : List Value)
  | redispatch (stack : List Value) (args : Nat)
  | panic

/-- The return path of `execute_` (after the last instruction): pop the
return value, drop the remaining frame values and the callable slot below
the frame, and, if the frame ran with `excess = true`, pop the excess `Data`
bundle, push the return value, push each excess field in order and
re-dispatch a call with as many arguments as there are excess fields
(`do_call(excess.fields.len())` in the code); otherwise just push the return
value.  `below` holds the stack beneath the frame (its top entry is the
callable slot at `base - 1`), `frame` the frame's own values. -/
def execute_return (below frame : List Value) (excess : Bool) : ReturnResult :=
  match frame.getLast? with
  | none => .panic
  | some result =>
    let parent := below.dropLast
    if excess then
      match parent.getLast? with
      | some (Value.data _ fields) =>
          .redispatch (parent.dropLast ++ result :: fields) fields.length
      | _ => .panic
    else
      .normal (parent ++ [result])

/-- Result of `execute_function` (the foreign-call bridge). -/
inductive FnResult where
  | ok (stack : List Value)
  | err (e : VMError)
  | panic

/-- Mirrors the part of `VM::execute_function` after the host callback has
returned: pop the result the callback left on top, clear the remaining frame
values, exit the scope (an error if this was the last frame), pop the
callable slot, push the result.  A `Status::Error` return then pops that
result again and surfaces it: a `String` becomes the structured error
message, any other value the generic "Unexpected panic in VM". -/
def execute_function_finish (below frame : List Value) (hasParent : Bool)
    (status : Status) : FnResult :=
  match frame.getLast? with
  | none => .panic
  | some result =>
    if hasParent then
      let parent := below.dropLast
      match status with
      | .ok => .ok (parent ++ [result])
      | .error =>
        match result with
        | .str s => .err (.message s)
        | _ => .err (.message ("Unexpected panic in VM"))
    else .err (.message ("Poped the last frame in execute_function"))

/-- Mirrors `enum Instruction` as consumed exhaustively by the dispatch loop
of `execute_` (the enum itself lives in the `types` module, which is not
among the sources; the constructors and their payloads are read off the
match in `execute_`).  `PushFloat` carries the float payload as its content
word. -/
inductive Instruction where
  | Push (i : Nat)
  | PushInt (n : Int)
  | PushFloat (bits : Int)
  | PushString (k : Nat)
  | PushGlobal (g : Nat)
  | PushUpVar (i : Nat)
  | Call (args : Nat)
  | TailCall (args : Nat)
  | Construct (tag : Nat) (args : Nat)
  | GetField (i : Nat)
  | TestTag (tag : Nat)
  | Split
  | Jump (t : Nat)
  | CJump (t : Nat)
  | Pop (n : Nat)
  | Slide (n : Nat)
  | GetIndex
  | SetIndex
  | MakeClosure (fi n : Nat)
  | NewClosure (fi n : Nat)
  | CloseClosure (n : Nat)
  | AddInt
  | SubtractInt
  | MultiplyInt
  | DivideInt
  | IntLT
  | IntEQ
  | AddFloat
  | SubtractFloat
  | MultiplyFloat
  | DivideFloat
  | FloatLT
  | FloatEQ

/-- The parts of the frame's surroundings an instruction may read: the
current function's string pool and inner functions, the globals (read by
`PushGlobal` through the `get_global!` macro), the current closure's upvars
(read by `PushUpVar` via `stack.get_upvar`), and the host's `f64` arithmetic
and comparisons abstracted on the float content word (api.rs is not among
the sources; the spec says float semantics match the host). -/
structure ExecCtx where
  strings : List String
  inner : List FuncRef
  globals : List Value
  upvars : List Value
  fadd : Int → Int → Int
  fsub : Int → Int → Int
  fmul : Int → Int → Int
  fdiv : Int → Int → Int
  flt : Int → Int → Bool
  feq : Int → Int → Bool

/-- `Getable` for `VMInt` (api.rs missing): reads an `Int` value. -/
def fromInt : Value → Option Int
  | .int n => some n
  | _ => none

/-- `Getable` for `f64` (api.rs missing): reads a `Float` value's content. -/
def fromFloat : Value → Option Int
  | .float b => some b
  | _ => none

/-- `Pushable` for `bool` (api.rs missing): the spec says comparison results
are 1 or 0 pushed as `Int`. -/
def boolToValue (b : Bool) : Value := .int (if b then 1 else 0)

/-- Mirrors the free function `binop` of vm.rs: pop the right operand, pop
the left operand, convert both with the instruction's `Getable`; on success
push the operator's result, on conversion failure `panic!` (modelled by
`none`).  The operator itself may also abort (integer division by zero),
hence its `Option` result. -/
def binop (fromV : Value → Option α) (toV : β → Value) (f : α → α → Option β)
    (s : List Value) : Option (List Value) :=
  match s.getLast?, s.dropLast.getLast? with
  | some r, some l =>
    match fromV l, fromV r with
    | some a, some b =>
      match f a b with
      | some c => some (s.dropLast.dropLast ++ [toV c])
      | none => none
    | _, _ => none
  | _, _ => none

/-- Result of executing one instruction of `execute_`'s loop: continue at an
instruction index, leave the frame through `Call` (the saved resume index is
recorded on the frame) or `TailCall`, fail with a `vm::Error`, or panic. -/
inductive StepResult where
  | next (stack : List Value) (idx : Nat)
  | call (stack : List Value) (args : Nat) (retIdx : Nat)
  | tailcall (stack : List Value) (args : Nat)
  | err (e : VMError)
  | panic

/-- Whether a step produced a `vm::Error` result. -/
def StepResult.isErr : StepResult → Bool
  | .err _ => true
  | _ => false

/-- Whether a step panicked. -/
def StepResult.isPanic : StepResult → Bool
  | .panic => true
  | _ => false

/-- Lift a `binop` outcome into a step. -/
def stepBinop (idx : Nat) : Option (List Value) → StepResult
  | some s1 => .next s1 (idx + 1)
  | none => .panic

/-- One iteration of the dispatch loop of `execute_` on the frame-relative
stack `s` at instruction index `idx`.  Every arm mirrors the corresponding
arm of the `match instr` in the source; `Call` and `TailCall` hand over to
`do_call` / `tail_call`, and mutation of heap cells (`SetIndex`,
`CloseClosure`) is reflected only in the stack shape, the store being
modelled value-functionally. -/
def execInstr (ctx : ExecCtx) (instr : Instruction) (s : List Value) (idx : Nat) :
    StepResult :=
  match instr with
  | .Push i =>
    match s.get? i with
    | some v => .next (s ++ [v]) (idx + 1)
    | none => .panic
  | .PushInt n => .next (s ++ [.int n]) (idx + 1)
  | .PushFloat b => .next (s ++ [.float b]) (idx + 1)
  | .PushString k =>
    match ctx.strings.get? k with
    | some t => .next (s ++ [.str t]) (idx + 1)
    | none => .panic
  | .PushGlobal g =>
    match ctx.globals.get? g with
    | some v => .next (s ++ [v]) (idx + 1)
    | none => .panic
  | .PushUpVar i =>
    match ctx.upvars.get? i with
    | some v => .next (s ++ [v]) (idx + 1)
    | none => .panic
  | .Call a => .call s a (idx + 1)
  | .TailCall a => .tailcall s a
  | .Construct tag a =>
    if s.length < a then .panic
    else .next (s.take (s.length - a) ++ [.data tag (s.drop (s.length - a))]) (idx + 1)
  | .GetField i =>
    match s.getLast? with
    | some (.data _ fields) =>
      match fields.get? i with
      | some v => .next (s.dropLast ++ [v]) (idx + 1)
      | none => .panic
    | some x => .err (.getFieldOn x)
    | none => .panic
  | .TestTag t =>
    match s.getLast? with
    | some (.data tag _) => .next (s ++ [.int (if tag = t then 1 else 0)]) (idx + 1)
    | some _ => .err .testTagNonData
    | none => .panic
  | .Split =>
    match s.getLast? with
    | some (.data _ fields) => .next (s.dropLast ++ fields) (idx + 1)
    | some _ => .err .splitNonData
    | none => .panic
  | .Jump t => .next s t
  | .CJump t =>
    match s.getLast? with
    | some (.int 0) => .next s.dropLast (idx + 1)
    | some _ => .next s.dropLast t
    | none => .panic
  | .Pop n =>
    if s.length < n then .panic else .next (s.take (s.length - n)) (idx + 1)
  | .Slide n =>
    match s.getLast? with
    | some v =>
      if s.length - 1 < n then .panic
      else .next (s.dropLast.take (s.length - 1 - n) ++ [v]) (idx + 1)
    | none => .panic
  | .GetIndex =>
    match s.getLast?, s.dropLast.getLast? with
    | some ixv, some arrv =>
      match arrv, ixv with
      | .data _ fields, .int i =>
        if i < 0 then .panic
        else
          match fields.get? i.toNat with
          | some v => .next (s.dropLast.dropLast ++ [v]) (idx + 1)
          | none => .panic
      | x, y => .err (.getIndexInvalid x y)
    | _, _ => .panic
  | .SetIndex =>
    match s.getLast?, s.dropLast.getLast?, s.dropLast.dropLast.getLast? with
    | some _, some ixv, some arrv =>
      match arrv, ixv with
      | .data _ fields, .int i =>
        if i < 0 then .panic
        else if i.toNat < fields.length then
          .next s.dropLast.dropLast.dropLast (idx + 1)
        else .panic
      | x, y => .err (.setIndexInvalid x y)
    | _, _, _ => .panic
  | .MakeClosure fi n =>
    if s.length < n then .panic
    else
      match ctx.inner.get? fi with
      | some fn =>
        .next (s.take (s.length - n) ++ [.closure fn (s.drop (s.length - n))]) (idx + 1)
      | none => .panic
  | .NewClosure fi n =>
    match ctx.inner.get? fi with
    | some fn =>
      if n ≤ 128 then .next (s ++ [.closure fn (List.replicate n (.int 0))]) (idx + 1)
      else .panic
    | none => .panic
  | .CloseClosure n =>
    if s.length < n + 1 then .panic
    else
      match s.get? (s.length - n - 1) with
      | some (.closure _ ups) =>
        if s.length < ups.length + 1 then .panic
        else .next (s.take (s.length - ups.length - 1)) (idx + 1)
      | some _ => .panic
      | none => .panic
  | .AddInt => stepBinop idx (binop fromInt Value.int (fun a b => some (a + b)) s)
  | .SubtractInt => stepBinop idx (binop fromInt Value.int (fun a b => some (a - b)) s)
  | .MultiplyInt => stepBinop idx (binop fromInt Value.int (fun a b => some (a * b)) s)
  | .DivideInt =>
    stepBinop idx (binop fromInt Value.int
      (fun a b => if b = 0 then none else some (Int.tdiv a b)) s)
  | .IntLT => stepBinop idx (binop fromInt boolToValue (fun a b => some (decide (a < b))) s)
  | .IntEQ => stepBinop idx (binop fromInt boolToValue (fun a b => some (decide (a = b))) s)
  | .AddFloat => stepBinop idx (binop fromFloat Value.float (fun a b => some (ctx.fadd a b)) s)
  | .SubtractFloat =>
    stepBinop idx (binop fromFloat Value.float (fun a b => some (ctx.fsub a b)) s)
  | .MultiplyFloat =>
    stepBinop idx (binop fromFloat Value.float (fun a b => some (ctx.fmul a b)) s)
  | .DivideFloat =>
    stepBinop idx (binop fromFloat Value.float (fun a b => some (ctx.fdiv a b)) s)
  | .FloatLT => stepBinop idx (binop fromFloat boolToValue (fun a b => some (ctx.flt a b)) s)
  | .FloatEQ => stepBinop idx (binop fromFloat boolToValue (fun a b => some (ctx.feq a b)) s)

/-- Result of the `TailCall` arm of `execute_`. -/
inductive TCResult where
  | call (stack : List Value) (args : Nat)
  | done
  | panic

/-- Mirrors the `TailCall(args)` arm of `execute_` on the underlying stack
`stack` whose current frame starts at `base`: compute the span of values
between the frame base and the arguments; if the frame ran with
`excess = true`, push the fields of the saved excess `Data` (which sits at
`base - 2`, beneath the callable slot) and extend the argument count;
exit the scope (if this was the last frame, return - `done`), remove the
span (which includes the old callable slot) just below the tail-callable,
and re-dispatch `do_call` with the final argument count. -/
def tail_call (stack : List Value) (base args : Nat) (excess hasParent : Bool) :
    TCResult :=
  if stack.length < base + args then .panic
  else
    let amount := stack.length - base - args
    if excess then
      match stack.get? (base - 2) with
      | some (Value.data _ fields) =>
        let stack1 := stack ++ fields
        let args1 := args + fields.length
        let amount1 := amount + 1
        if hasParent then
          let endIdx := stack1.length - args1 - 1
          .call (stack1.take (endIdx - amount1) ++ stack1.drop endIdx) args1
        else .done
      | _ => .panic
    else
      if hasParent then
        let endIdx := stack.length - args - 1
        .call (stack.take (endIdx - amount) ++ stack.drop endIdx) args
      else .done

/-- A static type as far as the global environment inspects it: record types
with named, ordered fields are traversed by `get_global`; every other type
is opaque and only compared for equality (`TcType`'s structural equality). -/
inductive TcTy where
  | record (fields : List (String × TcTy))
  | base (n : Nat)

mutual

/-- Structural equality of static types (`PartialEq` on `TcType`). -/
def tcTyEq : TcTy → TcTy → Bool
  | .record f1, .record f2 => tcFieldsEq f1 f2
  | .base a, .base b => a == b
  | _, _ => false

/-- Pairwise equality of record fields. -/
def tcFieldsEq : List (String × TcTy) → List (String × TcTy) → Bool
  | [], [] => true
  | (n1, t1) :: r1, (n2, t2) :: r2 => n1 == n2 && tcTyEq t1 t2 && tcFieldsEq r1 r2
  | _, _ => false

end

/-- A `Global` of vm.rs: name, static type and current value. -/
structure Global where
  id : String
  typ : TcTy
  value : Value

/-- The global environment: the `names` map (name to index into `globals`,
modelled as an association list) and the insertion-ordered `globals`
vector. -/
structure GlobalState where
  names : List (String × Nat)
  globals : List Global

/-- Lookup in the `names` map. -/
def lookupName (names : List (String × Nat)) (s : String) : Option Nat :=
  (names.find? (fun p => p.1 == s)).map (fun p => p.2)

/-- Mirrors `GlobalVMState::set_global`: if `id` is already bound return the
"already defined" error without touching anything; otherwise record
`id ↦ globals.len()` in the names map and append the new global. -/
def set_global (st : GlobalState) (id : String) (typ : TcTy) (value : Value) :
    Except VMError GlobalState :=
  if (lookupName st.names id).isSome then
    .error (.message (id ++ (" is already defined")))
  else
    .ok ⟨st.names ++ [(id, st.globals.length)], st.globals ++ [⟨id, typ, value⟩]⟩

/-- The `Error::Message` shapes `get_global` can produce: "Could not
retrieve global" (unknown name, `unknownGlobal`), "cannot be accessed by the
field" (`notAField`), and "the types did not match" (`typeMismatch`). -/
inductive GetGlobalErr where
  | unknownGlobal
  | notAField (f : String)
  | typeMismatch

/-- Result of `VM::get_global`: a value, a resolution error, or a panic. -/
inductive GGResult where
  | ok (v : Value)
  | err (e : GetGlobalErr)
  | panic

/-- The `fields.iter().enumerate().find(...)` of `get_global`: position and
type of the named record field. -/
def findField : List (String × TcTy) → String → Nat → Option (Nat × TcTy)
  | [], _, _ => none
  | (n, t) :: rest, f, i => if n == f then some (i, t) else findField rest f (i + 1)

/-- The field-walking loop of `VM::get_global`: for each remaining path
component the current static type must be a record containing the component
(else the "cannot be accessed by the field" error); the current value is
then required to be a `Data` — any other value hits the `_ => panic!()` arm
— and the walk continues on the indexed field.  At the end the resolved
static type must equal the requested one (else the type-mismatch error);
the final marshalling (`T::from_value`, api.rs not among the sources) is
modelled from the spec as succeeding on a value of the matching type. -/
def resolveFields (reqTy : TcTy) : TcTy → Value → List String → GGResult
  | typ, value, [] =>
    if tcTyEq typ reqTy then .ok value else .err .typeMismatch
  | typ, value, f :: rest =>
    match typ with
    | .record fields =>
      match findField fields f 0 with
      | some (offset, nextTy) =>
        match value with
        | .data _ dfields =>
          match dfields.get? offset with
          | some v => resolveFields reqTy nextTy v rest
          | none => .panic
        | _ => .panic
      | none => .err (.notAField f)
    | _ => .err (.notAField f)

/-- The dotted name of a path, as keyed in the `names` map when the full
name was registered as a single global. -/
def fullName (first : String) (rest : List String) : String :=
  String.intercalate (".") (first :: rest)

/-- Mirrors `VM::get_global`: the first path component names a global (with
the source's fallback of looking up the full dotted name, consuming all
remaining components); the remaining components are walked through record
fields by `resolveFields`.  An unknown name is the "Could not retrieve
global" error.  (`Name::components`, from the `base` crate, always yields at
least one component for a Rust string, so the "not a valid name" arm of the
source is unreachable and the path is modelled as nonempty.) -/
def get_global (st : GlobalState) (first : String) (rest : List String)
    (reqTy : TcTy) : GGResult :=
  match lookupName st.names first with
  | some i =>
    match st.globals.get? i with
    | some g => resolveFields reqTy g.typ g.value rest
    | none => .panic
  | none =>
    match lookupName st.names (fullName first rest) with
    | some i =>
      match st.globals.get? i with
      | some g => resolveFields reqTy g.typ g.value []
      | none => .panic
    | none => .err .unknownGlobal

mutual

/-- The reachability invariant of claim C4, expressed on a value: every
`PartialApplication` occurring inside has strictly fewer bound arguments
than its callable's arity, recursively through `Data` fields, closure
upvars and the bound arguments themselves. -/
def valueWF : Value → Bool
  | .int _ => true
  | .float _ => true
  | .str _ => true
  | .data _ fields => listWFv fields
  | .function _ _ => true
  | .closure _ ups => listWFv ups
  | .papp c bound => decide (bound.length < c.args) && callableWF c && listWFv bound
  | .userdata _ => true
  | .lazy _ => true
  | .thread _ => true

/-- `valueWF` on the closure half of a `Callable`. -/
def callableWF : Callable → Bool
  | .closure _ ups => listWFv ups
  | .ext _ _ => true

/-- `valueWF` for every element of a list (a stack, fields, upvars). -/
def listWFv : List Value → Bool
  | [] => true
  | v :: vs => valueWF v && listWFv vs

end

/-- Context well-formedness: all globals and upvars satisfy the invariant. -/
def ctxWF (c : ExecCtx) : Prop :=
  listWFv c.globals = true ∧ listWFv c.upvars = true

/-- The invariant on every stack a step result carries. -/
def stepResultWF : StepResult → Prop
  | .next s _ => listWFv s = true
  | .call s _ _ => listWFv s = true
  | .tailcall s _ => listWFv s = true
  | .err _ => True
  | .panic => True

/-- The invariant on every stack (and entered callable) a call result
carries. -/
def callResultWF : CallResult → Prop
  | .enter s c _ => listWFv s = true ∧ callableWF c = true
  | .push s => listWFv s = true
  | .err _ => True
  | .panic => True

/-- The invariant on every stack a return result carries. -/
def returnResultWF : ReturnResult → Prop
  | .normal s => listWFv s = true
  | .redispatch s _ => listWFv s = true
  | .panic => True

/-- The invariant on every stack a tail-call result carries. -/
def tcResultWF : TCResult → Prop
  | .call s _ => listWFv s = true
  | .done => True
  | .panic => True

/-- The invariant on every stack a foreign-call result carries. -/
def fnResultWF : FnResult → Prop
  | .ok s => listWFv s = true
  | .err _ => True
  | .panic => True

/-- A concrete execution context (empty pools, trivial host float ops) used
to evaluate the interpreter on closed inputs. -/
def defaultCtx : ExecCtx :=
  ⟨[], [], [], [], fun a _ => a, fun a _ => a, fun a _ => a, fun a _ => a,
   fun _ _ => false, fun _ _ => false⟩

/-- The operand conversion (`Getable`) with which an arithmetic or
comparison instruction converts its two popped operands in `binop`:
`fromInt` for the six `Int` instructions, `fromFloat` for the six `Float`
instructions, and nothing for every other instruction. -/
def arithGetable : Instruction → Option (Value → Option Int)
  | .AddInt | .SubtractInt | .MultiplyInt | .DivideInt | .IntLT | .IntEQ => some fromInt
  | .AddFloat | .SubtractFloat | .MultiplyFloat | .DivideFloat
  | .FloatLT | .FloatEQ => some fromFloat
  | _ => none

theorem take_append_eq {α : Type} (l₁ l₂ : List α) (n : Nat) (h : n = l₁.length) :
    (l₁ ++ l₂).take n = l₁ := by
  subst h
  exact List.take_left l₁ l₂

theorem drop_append_eq {α : Type} (l₁ l₂ : List α) (n : Nat) (h : n = l₁.length) :
    (l₁ ++ l₂).drop n = l₂ := by
  subst h
  exact List.drop_left l₁ l₂

theorem getq_append_eq {α : Type} (l₁ l₂ : List α) (x : α) (n : Nat)
    (h : n = l₁.length) : (l₁ ++ x :: l₂).get? n = some x := by
  subst h
  induction l₁ with
  | nil => rfl
  | cons a t ih => simpa using ih

theorem valueListEq_iff_forall2 (f1 f2 : List Value) :
    valueListEq f1 f2 = true ↔ List.Forall₂ (fun a b => valueEq a b = true) f1 f2 := by
  induction f1 generalizing f2 with
  | nil =>
    cases f2 with
    | nil => simp [valueListEq]
    | cons b bs => simp [valueListEq]
  | cons a as_ ih =>
    cases f2 with
    | nil => simp [valueListEq]
    | cons b bs =>
      simp [valueListEq, List.forall₂_cons, ih]

/-- C5 counterexample: the claim says every `Thread` value compares unequal
to every value including itself, but `Thread`'s `PartialEq` in the sources
compares addresses, so a `Thread` value equals itself. -/
theorem thread_self_equality_counterexample_c5 :
    valueEq (Value.thread 0) (Value.thread 0) = true := by
  simp [valueEq]

/-- C5 (amended): structural equality on `Value` compares `Int`, `Float`,
`String` by content, `Data` by tag and pairwise structurally equal fields,
`Userdata` and `Thread` by pointer identity, while every `Closure`,
`Function` (extern), `PartialApplication` or `Lazy` value compares unequal
to every value, including itself. -/
theorem value_equality_spec_c5 :
    (∀ a b : Int, valueEq (.int a) (.int b) = (a == b))
    ∧ (∀ a b : Int, valueEq (.float a) (.float b) = (a == b))
    ∧ (∀ a b : String, valueEq (.str a) (.str b) = (a == b))
    ∧ (∀ t1 f1 t2 f2, valueEq (.data t1 f1) (.data t2 f2) = true ↔
        t1 = t2 ∧ List.Forall₂ (fun a b => valueEq a b = true) f1 f2)
    ∧ (∀ p q : Nat, valueEq (.userdata p) (.userdata q) = (p == q))
    ∧ (∀ p q : Nat, valueEq (.thread p) (.thread q) = (p == q))
    ∧ (∀ fn ups v, valueEq (.closure fn ups) v = false ∧ valueEq v (.closure fn ups) = false)
    ∧ (∀ p a v, valueEq (.function p a) v = false ∧ valueEq v (.function p a) = false)
    ∧ (∀ c bound v, valueEq (.papp c bound) v = false ∧ valueEq v (.papp c bound) = false)
    ∧ (∀ p v, valueEq (.lazy p) v = false ∧ valueEq v (.lazy p) = false) := by
  refine ⟨?_, ?_, ?_, ?_, ?_, ?_, ?_, ?_, ?_, ?_⟩
  · intro a b; simp [valueEq]
  · intro a b; simp [valueEq]
  · intro a b; simp [valueEq]
  · intro t1 f1 t2 f2
    simp [valueEq, valueListEq_iff_forall2]
  · intro p q; simp [valueEq]
  · intro p q; simp [valueEq]
  · intro fn ups v; cases v <;> simp [valueEq]
  · intro p a v; cases v <;> simp [valueEq]
  · intro c bound v; cases v <;> simp [valueEq]
  · intro p v; cases v <;> simp [valueEq]

theorem do_call_at_callable (rest argvals : List Value) (c : Callable) :
    do_call (rest ++ c.toValue :: argvals) argvals.length
      = call_function_with_upvars (rest ++ c.toValue :: argvals) argvals.length c.args c := by
  have hlen : (rest ++ c.toValue :: argvals).length = rest.length + 1 + argvals.length := by
    simp
    omega
  have hidx : (rest ++ c.toValue :: argvals).length - 1 - argvals.length = rest.length := by
    omega
  have hguard : ¬ ((rest ++ c.toValue :: argvals).length < argvals.length + 1) := by
    omega
  cases c with
  | closure fn ups =>
    unfold do_call
    rw [if_neg hguard, hidx, getq_append_eq _ _ _ _ rfl]
    simp only [Callable.toValue, Callable.args]
  | ext p a =>
    unfold do_call
    rw [if_neg hguard, hidx, getq_append_eq _ _ _ _ rfl]
    simp only [Callable.toValue, Callable.args]

theorem do_call_at_papp (rest argvals bound : List Value) (fn : Callable) :
    do_call (rest ++ (Value.papp fn bound) :: argvals) argvals.length
      = call_function_with_upvars (rest ++ (Value.papp fn bound) :: (bound ++ argvals))
          (bound.length + argvals.length) fn.args fn := by
  have hlen : (rest ++ (Value.papp fn bound) :: argvals).length
      = rest.length + 1 + argvals.length := by
    simp
    omega
  have hidx : (rest ++ (Value.papp fn bound) :: argvals).length - 1 - argvals.length
      = rest.length := by
    omega
  have hguard : ¬ ((rest ++ (Value.papp fn bound) :: argvals).length < argvals.length + 1) := by
    omega
  unfold do_call
  rw [if_neg hguard, hidx, getq_append_eq _ _ _ _ rfl]
  have hoff : (rest ++ (Value.papp fn bound) :: argvals).length - argvals.length
      = rest.length + 1 := by
    omega
  have hsplit : rest ++ (Value.papp fn bound) :: argvals
      = (rest ++ [Value.papp fn bound]) ++ argvals := by
    simp
  have htake : (rest ++ (Value.papp fn bound) :: argvals).take (rest.length + 1)
      = rest ++ [Value.papp fn bound] := by
    rw [hsplit]
    exact take_append_eq _ _ _ (by simp)
  have hdrop : (rest ++ (Value.papp fn bound) :: argvals).drop (rest.length + 1)
      = argvals := by
    rw [hsplit]
    exact drop_append_eq _ _ _ (by simp)
  simp only [hoff, htake, hdrop, List.append_assoc, List.cons_append, List.singleton_append,
    List.nil_append]

theorem under_application_papp (rest argvals : List Value) (c : Callable)
    (h : argvals.length < c.args) :
    call_function_with_upvars (rest ++ c.toValue :: argvals) argvals.length c.args c
      = .push (rest ++ [Value.papp c argvals]) := by
  have hlen : (rest ++ c.toValue :: argvals).length = rest.length + 1 + argvals.length := by
    simp
    omega
  have hne : argvals.length ≠ c.args := Nat.ne_of_lt h
  unfold call_function_with_upvars
  rw [if_neg hne, if_pos h]
  have hdrop : (rest ++ c.toValue :: argvals).drop
      ((rest ++ c.toValue :: argvals).length - argvals.length) = argvals := by
    have hsplit : rest ++ c.toValue :: argvals = (rest ++ [c.toValue]) ++ argvals := by simp
    rw [hlen, hsplit]
    exact drop_append_eq _ _ _
      (by simp only [List.length_append, List.length_cons, List.length_nil]; omega)
  have htake : (rest ++ c.toValue :: argvals).take
      ((rest ++ c.toValue :: argvals).length - (argvals.length + 1)) = rest := by
    rw [hlen]
    exact take_append_eq rest (c.toValue :: argvals) _ (by omega)
  simp only [hdrop, htake]

theorem over_application_enter (rest argvals : List Value) (c : Callable)
    (h : c.args < argvals.length) :
    call_function_with_upvars (rest ++ c.toValue :: argvals) argvals.length c.args c
      = execute_callable
          (rest ++ Value.data 0 (argvals.drop c.args) :: c.toValue :: argvals.take c.args)
          c true := by
  have hlen : (rest ++ c.toValue :: argvals).length = rest.length + 1 + argvals.length := by
    simp
    omega
  have hne : argvals.length ≠ c.args := (Nat.ne_of_lt h).symm
  have hnlt : ¬ (argvals.length < c.args) := by omega
  unfold call_function_with_upvars
  rw [if_neg hne, if_neg hnlt]
  have hsplit : rest ++ c.toValue :: argvals
      = (rest ++ c.toValue :: argvals.take c.args) ++ argvals.drop c.args := by
    simp
  have hlen2 : (rest ++ c.toValue :: argvals.take c.args).length
      = rest.length + 1 + c.args := by
    simp
    omega
  have hdrop : (rest ++ c.toValue :: argvals).drop
      ((rest ++ c.toValue :: argvals).length - (argvals.length - c.args))
      = argvals.drop c.args := by
    rw [hlen, hsplit]
    exact drop_append_eq _ _ _ (by rw [hlen2]; omega)
  have htake : (rest ++ c.toValue :: argvals).take
      ((rest ++ c.toValue :: argvals).length - (argvals.length - c.args))
      = rest ++ c.toValue :: argvals.take c.args := by
    rw [hlen, hsplit]
    exact take_append_eq _ _ _ (by rw [hlen2]; omega)
  simp only [hdrop, htake]
  have htake2 : (rest ++ c.toValue :: argvals.take c.args).take
      ((rest ++ c.toValue :: argvals.take c.args).length - c.args - 1) = rest := by
    rw [hlen2]
    exact take_append_eq rest (c.toValue :: argvals.take c.args) _ (by omega)
  have hdrop2 : (rest ++ c.toValue :: argvals.take c.args).drop
      ((rest ++ c.toValue :: argvals.take c.args).length - c.args - 1)
      = c.toValue :: argvals.take c.args := by
    rw [hlen2]
    exact drop_append_eq rest (c.toValue :: argvals.take c.args) _ (by omega)
  simp only [htake2, hdrop2]

theorem execute_return_excess (rest fields locals : List Value) (cv v : Value) (tag : Nat) :
    execute_return (rest ++ [Value.data tag fields, cv]) (locals ++ [v]) true
      = .redispatch (rest ++ v :: fields) fields.length := by
  have e1 : rest ++ [Value.data tag fields, cv]
      = (rest ++ [Value.data tag fields]) ++ [cv] := by simp
  unfold execute_return
  simp only [e1, List.getLast?_concat, List.dropLast_concat, if_true]

/-- C1: the over-application protocol.  For closure callables the code does
exactly what the claim says: it bundles the top `a - r` values into a
`Data` with tag 0, pops them, inserts the bundle one slot below the
callable, enters the callee's frame with `excess = true`, and on return
pops the bundle, pushes the return value, pushes each excess field in order
and re-dispatches a call with as many arguments as there are excess fields.
For an extern callable, however, `execute_callable` ignores its `excess`
argument, so the frame is entered with `excess = false` (second conjunct, a
concrete over-applied extern of arity 1 called with 2 arguments) and the
return path never unpacks the bundle — contradicting the claim's "every
call of a callable". -/
theorem over_application_protocol_c1 :
    (∀ (rest argvals locals ups : List Value) (fn : FuncRef) (v : Value),
      fn.args < argvals.length →
      do_call (rest ++ (Value.closure fn ups) :: argvals) argvals.length
        = .enter (rest ++ Value.data 0 (argvals.drop fn.args)
              :: (Value.closure fn ups) :: argvals.take fn.args)
            (.closure fn ups) true
      ∧ execute_return (rest ++ [Value.data 0 (argvals.drop fn.args), Value.closure fn ups])
          (locals ++ [v]) true
        = .redispatch (rest ++ v :: argvals.drop fn.args) (argvals.drop fn.args).length)
    ∧ do_call [Value.function 3 1, Value.int 1, Value.int 2] 2
        = .enter [Value.data 0 [Value.int 2], Value.function 3 1, Value.int 1]
            (Callable.ext 3 1) false := by
  constructor
  · intro rest argvals locals ups fn v h
    constructor
    · have h1 := do_call_at_callable rest argvals (.closure fn ups)
      have h2 := over_application_enter rest argvals (.closure fn ups) h
      simp only [Callable.toValue, Callable.args] at h1 h2
      rw [h1, h2]
      rfl
    · exact execute_return_excess rest (argvals.drop fn.args) locals
        (Value.closure fn ups) v 0
  · rfl

theorem over_application_protocol_c1_witness :
    do_call [Value.closure ⟨0, 1⟩ [], Value.int 1, Value.int 2] 2
      = .enter [Value.data 0 [Value.int 2], Value.closure ⟨0, 1⟩ [], Value.int 1]
          (.closure ⟨0, 1⟩ []) true
    ∧ execute_return [Value.data 0 [Value.int 2], Value.closure ⟨0, 1⟩ []] [Value.int 9] true
      = .redispatch [Value.int 9, Value.int 2] 1 := by
  have h := over_application_protocol_c1.1 [] [Value.int 1, Value.int 2] [] [] ⟨0, 1⟩
    (Value.int 9) (by decide)
  exact ⟨by simpa using h.1, by simpa using h.2⟩

/-- C2: the currying equivalence fails on the code for over-applied extern
functions, because the extern frame is entered without the `excess` flag
and the bridge never re-dispatches.  Concretely, for an extern `F` of arity
1: calling `F` with both arguments at once enters the extern frame with
`excess = false` (first conjunct); after the host callback returns (say the
result 7 with `Status::Ok`), the bridge leaves the unconsumed excess bundle
beneath the result on the caller's stack and the second argument is never
applied (second conjunct).  Applying one argument at a time instead calls
the returned value with the remaining argument — which here is a "Cannot
call" error (third conjunct) — so the two evaluation orders are observably
different, against the claim. -/
theorem currying_extern_overapp_c2 :
    do_call [Value.function 7 1, Value.int 10, Value.int 20] 2
      = .enter [Value.data 0 [Value.int 20], Value.function 7 1, Value.int 10]
          (Callable.ext 7 1) false
    ∧ execute_function_finish [Value.data 0 [Value.int 20], Value.function 7 1]
        [Value.int 7] true .ok
      = .ok [Value.data 0 [Value.int 20], Value.int 7]
    ∧ do_call [Value.int 7, Value.int 20] 1 = .err (.cannotCall (Value.int 7)) := by
  exact ⟨rfl, rfl, rfl⟩

/-- C3: under-application and partial-application dispatch.  First conjunct:
a call of a callable of arity `r` with `a < r` arguments allocates a
`PartialApplication` capturing the callable and the `a` topmost values, pops
the `a + 1` slots of the arguments and the callable, and pushes the
application as the sole result.  Second conjunct: a call whose callee slot
holds a `PartialApplication` splices the bound arguments into the stack just
above the application, making the effective argument count
`bound.len() + a`, and dispatches on the inner callable. -/
theorem under_application_and_papp_dispatch_c3 :
    (∀ (rest argvals : List Value) (c : Callable), argvals.length < c.args →
      do_call (rest ++ c.toValue :: argvals) argvals.length
        = .push (rest ++ [Value.papp c argvals]))
    ∧ (∀ (rest argvals bound : List Value) (fn : Callable),
      do_call (rest ++ (Value.papp fn bound) :: argvals) argvals.length
        = call_function_with_upvars (rest ++ (Value.papp fn bound) :: (bound ++ argvals))
            (bound.length + argvals.length) fn.args fn) := by
  constructor
  · intro rest argvals c h
    rw [do_call_at_callable rest argvals c]
    exact under_application_papp rest argvals c h
  · intro rest argvals bound fn
    exact do_call_at_papp rest argvals bound fn

theorem under_application_and_papp_dispatch_c3_witness :
    do_call [Value.closure ⟨2, 2⟩ [], Value.int 5] 1
      = .push [Value.papp (.closure ⟨2, 2⟩ []) [Value.int 5]]
    ∧ do_call [Value.papp (.ext 1 3) [Value.int 4], Value.int 5] 1
      = call_function_with_upvars
          [Value.papp (.ext 1 3) [Value.int 4], Value.int 4, Value.int 5] 2 3 (.ext 1 3) := by
  constructor
  · have h := under_application_and_papp_dispatch_c3.1 [] [Value.int 5]
      (.closure ⟨2, 2⟩ []) (by decide)
    simpa using h
  · have h := under_application_and_papp_dispatch_c3.2 [] [Value.int 5] [Value.int 4]
      (.ext 1 3)
    simpa using h

/-- C6: when the host callback of a foreign call returns `Status::Error`,
the value it left on top of the stack determines the surfaced error: a
`String` value becomes a structured error carrying that string as its
message, any other kind of value becomes the generic
"Unexpected panic in VM" error. -/
theorem extern_error_status_c6 :
    (∀ (below locals : List Value) (s : String),
      execute_function_finish below (locals ++ [Value.str s]) true .error
        = .err (.message s))
    ∧ (∀ (below locals : List Value) (v : Value), (∀ s, v ≠ Value.str s) →
      execute_function_finish below (locals ++ [v]) true .error
        = .err (.message ("Unexpected panic in VM"))) := by
  constructor
  · intro below locals s
    unfold execute_function_finish
    rw [List.getLast?_concat]
    rfl
  · intro below locals v hv
    unfold execute_function_finish
    rw [List.getLast?_concat]
    cases v <;> first | rfl | (exact absurd rfl (hv _))

theorem extern_error_status_c6_witness :
    execute_function_finish [Value.int 0] [Value.str ("boom")] true .error
      = .err (.message ("boom"))
    ∧ execute_function_finish [Value.int 0] [Value.int 5] true .error
      = .err (.message ("Unexpected panic in VM")) := by
  constructor
  · exact extern_error_status_c6.1 [Value.int 0] [] ("boom")
  · exact extern_error_status_c6.2 [Value.int 0] [] (Value.int 5) (fun s => by simp)

theorem getq_append_left {α : Type} (l₁ l₂ : List α) (i : Nat) (h : i < l₁.length) :
    (l₁ ++ l₂).get? i = l₁.get? i := by
  induction l₁ generalizing i with
  | nil => exact absurd h (by simp)
  | cons a t ih =>
    cases i with
    | zero => rfl
    | succ j =>
      have hj : j < t.length := by simpa using h
      simpa using ih j hj

/-- C8: `set_global` appends a new global (recording its index in the names
map) and returns `Ok` when the name is unbound, leaving every previously
handed-out index valid; when the name is already bound it returns the
"already defined" error, and (the check happening before any mutation) the
state is unchanged. -/
theorem set_global_append_c8 :
    (∀ (st : GlobalState) (id : String) (typ : TcTy) (value : Value),
      lookupName st.names id = none →
      set_global st id typ value
        = .ok ⟨st.names ++ [(id, st.globals.length)], st.globals ++ [⟨id, typ, value⟩]⟩
      ∧ ∀ i, i < st.globals.length →
          (st.globals ++ [(⟨id, typ, value⟩ : Global)]).get? i = st.globals.get? i)
    ∧ (∀ (st : GlobalState) (id : String) (typ : TcTy) (value : Value),
      (lookupName st.names id).isSome = true →
      set_global st id typ value = .error (.message (id ++ (" is already defined")))) := by
  constructor
  · intro st id typ value h
    constructor
    · unfold set_global
      rw [h]
      rfl
    · intro i hi
      exact getq_append_left st.globals [⟨id, typ, value⟩] i hi
  · intro st id typ value h
    unfold set_global
    rw [h]
    rfl

theorem set_global_append_c8_witness :
    set_global ⟨[], []⟩ ("x") (.base 0) (Value.int 1)
      = .ok ⟨[(("x"), 0)], [⟨("x"), .base 0, Value.int 1⟩]⟩
    ∧ set_global ⟨[(("x"), 0)], [⟨("x"), .base 0, Value.int 1⟩]⟩ ("x") (.base 0) (Value.int 2)
      = .error (.message (("x") ++ (" is already defined"))) := by
  constructor
  · exact (set_global_append_c8.1 ⟨[], []⟩ ("x") (.base 0) (Value.int 1) rfl).1
  · exact set_global_append_c8.2 ⟨[(("x"), 0)], [⟨("x"), .base 0, Value.int 1⟩]⟩ ("x")
      (.base 0) (Value.int 2) rfl

/-- C10: in `get_global`'s dotted-path resolution, whenever the static type
of the current component is a record type containing the requested field but
the runtime value stored for it is not a `Data` value, the resolution hits
the `_ => panic!()` arm and the VM aborts instead of returning an error
result (the error results of `get_global` are exactly the unknown-global,
not-a-field and final type-mismatch cases enumerated by `GetGlobalErr`). -/
theorem get_global_record_nondata_panics_c10 :
    ∀ (st : GlobalState) (first f : String) (rest : List String) (reqTy : TcTy)
      (i : Nat) (g : Global) (fields : List (String × TcTy)) (off : Nat) (fty : TcTy),
      lookupName st.names first = some i →
      st.globals.get? i = some g →
      g.typ = .record fields →
      findField fields f 0 = some (off, fty) →
      g.value.isData = false →
      get_global st first (f :: rest) reqTy = .panic := by
  intro st first f rest reqTy i g fields off fty h1 h2 h3 h4 h5
  unfold get_global
  simp only [h1, h2, resolveFields, h3, h4]
  cases hv : g.value with
  | data t fs => rw [hv] at h5; simp [Value.isData] at h5
  | int n => rfl
  | float b => rfl
  | str s => rfl
  | function p a => rfl
  | closure fn ups => rfl
  | papp c bound => rfl
  | userdata p => rfl
  | lazy p => rfl
  | thread p => rfl

theorem get_global_record_nondata_panics_c10_witness :
    get_global ⟨[(("g"), 0)], [⟨("g"), .record [(("f"), .base 0)], Value.int 7⟩]⟩
      ("g") [("f")] (.base 0) = .panic := by
  exact get_global_record_nondata_panics_c10
    ⟨[(("g"), 0)], [⟨("g"), .record [(("f"), .base 0)], Value.int 7⟩]⟩
    ("g") ("f") [] (.base 0) 0 ⟨("g"), .record [(("f"), .base 0)], Value.int 7⟩
    [(("f"), .base 0)] 0 (.base 0) rfl rfl rfl rfl rfl

/-- C9: `NewClosure(f, n)` pushes, without consuming any stack values, a
closure over inner function `f` with exactly `n` placeholder upvars, each
initialized to `Int(0)`; the placeholders are copied out of a fixed 128-slot
array, so an upvar count above 128 makes the slice `&args[..n]` panic: the
operation fails rather than silently accepting the count. -/
theorem new_closure_placeholder_c9 :
    (∀ (ctx : ExecCtx) (s : List Value) (idx fi n : Nat) (fn : FuncRef),
      ctx.inner.get? fi = some fn → n ≤ 128 →
      execInstr ctx (.NewClosure fi n) s idx
        = .next (s ++ [Value.closure fn (List.replicate n (Value.int 0))]) (idx + 1))
    ∧ (∀ (ctx : ExecCtx) (s : List Value) (idx fi n : Nat), 128 < n →
      execInstr ctx (.NewClosure fi n) s idx = .panic) := by
  constructor
  · intro ctx s idx fi n fn h hn
    simp only [execInstr]
    rw [h]
    simp [hn]
  · intro ctx s idx fi n hn
    simp only [execInstr]
    cases h : ctx.inner.get? fi with
    | none => rfl
    | some fn =>
      have hne : ¬ (n ≤ 128) := by omega
      simp [hne]

theorem new_closure_placeholder_c9_witness :
    execInstr ⟨[], [⟨4, 2⟩], [], [], fun a _ => a, fun a _ => a, fun a _ => a,
        fun a _ => a, fun _ _ => false, fun _ _ => false⟩ (.NewClosure 0 2) [] 0
      = .next [Value.closure ⟨4, 2⟩ (List.replicate 2 (Value.int 0))] 1
    ∧ execInstr defaultCtx (.NewClosure 0 129) [] 0 = .panic := by
  constructor
  · have h := new_closure_placeholder_c9.1 ⟨[], [⟨4, 2⟩], [], [], fun a _ => a,
      fun a _ => a, fun a _ => a, fun a _ => a, fun _ _ => false, fun _ _ => false⟩
      [] 0 0 2 ⟨4, 2⟩ rfl (by omega)
    simpa using h
  · exact new_closure_placeholder_c9.2 defaultCtx [] 0 0 129 (by omega)

/-- C7 counterexample: executing `AddInt` with two `Float` operands does not
surface an error result to the host as the claim says — the `binop` helper
panics on the operand type mismatch. -/
theorem arith_mismatch_counterexample_c7 :
    execInstr defaultCtx .AddInt [Value.float 1, Value.float 2] 0 = .panic
    ∧ (execInstr defaultCtx .AddInt [Value.float 1, Value.float 2] 0).isErr = false := by
  exact ⟨rfl, rfl⟩

theorem binop_mismatch_none {α β : Type} (fromV : Value → Option α) (toV : β → Value)
    (f : α → α → Option β) (s : List Value) (l r : Value)
    (h : fromV l = none ∨ fromV r = none) :
    binop fromV toV f (s ++ [l, r]) = none := by
  have e1 : s ++ [l, r] = (s ++ [l]) ++ [r] := by simp
  rw [e1]
  simp only [binop, List.getLast?_concat, List.dropLast_concat]
  cases hl : fromV l with
  | none => cases hr : fromV r <;> rfl
  | some a =>
    cases hr : fromV r with
    | none => rfl
    | some b =>
      rcases h with h | h
      · rw [hl] at h
        exact absurd h (by simp)
      · rw [hr] at h
        exact absurd h (by simp)

/-- C7 (amended): an operand type mismatch in any arithmetic or comparison
instruction aborts the interpreter via `panic!` in `binop` instead of
surfacing as an error result.  `arithGetable` assigns each of the twelve
instructions (`AddInt` through `FloatEQ`) the `Getable` it converts its two
popped operands with, so the first conjunct covers every arithmetic and
comparison instruction at once: whenever either popped operand fails that
conversion, the step is a panic.  The other structural errors — here field
access on a non-`Data` value — do surface as error results, leaving the VM
usable. -/
theorem arith_mismatch_panics_c7 :
    (∀ (ctx : ExecCtx) (instr : Instruction) (fromV : Value → Option Int)
      (s : List Value) (idx : Nat) (l r : Value),
      arithGetable instr = some fromV →
      fromV l = none ∨ fromV r = none →
      execInstr ctx instr (s ++ [l, r]) idx = .panic)
    ∧ (∀ (ctx : ExecCtx) (s : List Value) (idx : Nat) (v : Value),
      v.isData = false →
      execInstr ctx (.GetField 0) (s ++ [v]) idx = .err (.getFieldOn v)) := by
  constructor
  · intro ctx instr fromV s idx l r harith h
    cases instr with
    | Push i => simp [arithGetable] at harith
    | PushInt n => simp [arithGetable] at harith
    | PushFloat b => simp [arithGetable] at harith
    | PushString k => simp [arithGetable] at harith
    | PushGlobal g => simp [arithGetable] at harith
    | PushUpVar i => simp [arithGetable] at harith
    | Call a => simp [arithGetable] at harith
    | TailCall a => simp [arithGetable] at harith
    | Construct tag a => simp [arithGetable] at harith
    | GetField i => simp [arithGetable] at harith
    | TestTag t => simp [arithGetable] at harith
    | Split => simp [arithGetable] at harith
    | Jump t => simp [arithGetable] at harith
    | CJump t => simp [arithGetable] at harith
    | Pop n => simp [arithGetable] at harith
    | Slide n => simp [arithGetable] at harith
    | GetIndex => simp [arithGetable] at harith
    | SetIndex => simp [arithGetable] at harith
    | MakeClosure fi n => simp [arithGetable] at harith
    | NewClosure fi n => simp [arithGetable] at harith
    | CloseClosure n => simp [arithGetable] at harith
    | AddInt =>
      simp only [arithGetable, Option.some.injEq] at harith
      subst harith
      simp only [execInstr]
      rw [binop_mismatch_none _ _ _ _ _ _ h]
      rfl
    | SubtractInt =>
      simp only [arithGetable, Option.some.injEq] at harith
      subst harith
      simp only [execInstr]
      rw [binop_mismatch_none _ _ _ _ _ _ h]
      rfl
    | MultiplyInt =>
      simp only [arithGetable, Option.some.injEq] at harith
      subst harith
      simp only [execInstr]
      rw [binop_mismatch_none _ _ _ _ _ _ h]
      rfl
    | DivideInt =>
      simp only [arithGetable, Option.some.injEq] at harith
      subst harith
      simp only [execInstr]
      rw [binop_mismatch_none _ _ _ _ _ _ h]
      rfl
    | IntLT =>
      simp only [arithGetable, Option.some.injEq] at harith
      subst harith
      simp only [execInstr]
      rw [binop_mismatch_none _ _ _ _ _ _ h]
      rfl
    | IntEQ =>
      simp only [arithGetable, Option.some.injEq] at harith
      subst harith
      simp only [execInstr]
      rw [binop_mismatch_none _ _ _ _ _ _ h]
      rfl
    | AddFloat =>
      simp only [arithGetable, Option.some.injEq] at harith
      subst harith
      simp only [execInstr]
      rw [binop_mismatch_none _ _ _ _ _ _ h]
      rfl
    | SubtractFloat =>
      simp only [arithGetable, Option.some.injEq] at harith
      subst harith
      simp only [execInstr]
      rw [binop_mismatch_none _ _ _ _ _ _ h]
      rfl
    | MultiplyFloat =>
      simp only [arithGetable, Option.some.injEq] at harith
      subst harith
      simp only [execInstr]
      rw [binop_mismatch_none _ _ _ _ _ _ h]
      rfl
    | DivideFloat =>
      simp only [arithGetable, Option.some.injEq] at harith
      subst harith
      simp only [execInstr]
      rw [binop_mismatch_none _ _ _ _ _ _ h]
      rfl
    | FloatLT =>
      simp only [arithGetable, Option.some.injEq] at harith
      subst harith
      simp only [execInstr]
      rw [binop_mismatch_none _ _ _ _ _ _ h]
      rfl
    | FloatEQ =>
      simp only [arithGetable, Option.some.injEq] at harith
      subst harith
      simp only [execInstr]
      rw [binop_mismatch_none _ _ _ _ _ _ h]
      rfl
  · intro ctx s idx v hv
    simp only [execInstr, List.getLast?_concat]
    cases hvv : v with
    | data t fs => rw [hvv] at hv; simp [Value.isData] at hv
    | int n => rfl
    | float b => rfl
    | str s => rfl
    | function p a => rfl
    | closure fn ups => rfl
    | papp c bound => rfl
    | userdata p => rfl
    | lazy p => rfl
    | thread p => rfl

theorem arith_mismatch_panics_c7_witness :
    execInstr defaultCtx .AddInt [Value.int 1, Value.str ("x")] 0 = .panic
    ∧ execInstr defaultCtx .FloatEQ [Value.float 1, Value.int 2] 0 = .panic
    ∧ execInstr defaultCtx (.GetField 0) [Value.int 3] 0
      = .err (.getFieldOn (Value.int 3)) := by
  refine ⟨?_, ?_, ?_⟩
  · have h := arith_mismatch_panics_c7.1 defaultCtx .AddInt fromInt [] 0 (Value.int 1)
      (Value.str ("x")) rfl (Or.inr rfl)
    simpa using h
  · have h := arith_mismatch_panics_c7.1 defaultCtx .FloatEQ fromFloat [] 0 (Value.float 1)
      (Value.int 2) rfl (Or.inr rfl)
    simpa using h
  · have h := arith_mismatch_panics_c7.2 defaultCtx [] 0 (Value.int 3) rfl
    simpa using h

theorem listWFv_append (a b : List Value) :
    listWFv (a ++ b) = (listWFv a && listWFv b) := by
  induction a with
  | nil => simp [listWFv]
  | cons v t ih => simp [listWFv, ih, Bool.and_assoc]

theorem listWFv_cons (v : Value) (t : List Value) :
    listWFv (v :: t) = (valueWF v && listWFv t) := by
  simp [listWFv]

theorem valueWF_of_mem {s : List Value} {v : Value} (h : v ∈ s) (hs : listWFv s = true) :
    valueWF v = true := by
  induction s with
  | nil => simp at h
  | cons a t ih =>
    rw [listWFv_cons, Bool.and_eq_true] at hs
    rcases List.mem_cons.mp h with h | h
    · subst h; exact hs.1
    · exact ih h hs.2

theorem listWFv_take (s : List Value) (n : Nat) (hs : listWFv s = true) :
    listWFv (s.take n) = true := by
  induction s generalizing n with
  | nil => simp [listWFv]
  | cons a t ih =>
    cases n with
    | zero => simp [listWFv]
    | succ m =>
      rw [listWFv_cons, Bool.and_eq_true] at hs
      rw [List.take_succ_cons, listWFv_cons, Bool.and_eq_true]
      exact ⟨hs.1, ih m hs.2⟩

theorem listWFv_drop (s : List Value) (n : Nat) (hs : listWFv s = true) :
    listWFv (s.drop n) = true := by
  induction s generalizing n with
  | nil => simp [listWFv]
  | cons a t ih =>
    cases n with
    | zero => exact hs
    | succ m =>
      rw [listWFv_cons, Bool.and_eq_true] at hs
      rw [List.drop_succ_cons]
      exact ih m hs.2

theorem listWFv_dropLast (s : List Value) (hs : listWFv s = true) :
    listWFv s.dropLast = true := by
  rw [List.dropLast_eq_take]
  exact listWFv_take s _ hs

theorem mem_of_getLastq {α : Type} {l : List α} {a : α} (h : l.getLast? = some a) :
    a ∈ l := by
  induction l with
  | nil => simp at h
  | cons x t ih =>
    cases t with
    | nil =>
      simp at h
      subst h
      simp
    | cons y t2 =>
      rw [List.getLast?_cons_cons] at h
      exact List.mem_cons_of_mem x (ih h)

theorem valueWF_of_getLastq {s : List Value} {v : Value} (h : s.getLast? = some v)
    (hs : listWFv s = true) : valueWF v = true :=
  valueWF_of_mem (mem_of_getLastq h) hs

theorem valueWF_of_getq {s : List Value} {i : Nat} {v : Value} (h : s.get? i = some v)
    (hs : listWFv s = true) : valueWF v = true :=
  valueWF_of_mem (List.get?_mem h) hs

theorem listWFv_replicate_int (n : Nat) :
    listWFv (List.replicate n (Value.int 0)) = true := by
  induction n with
  | zero => simp [listWFv]
  | succ m ih => simp [List.replicate_succ, listWFv, valueWF, ih]

theorem valueWF_papp {c : Callable} {bound : List Value} (h1 : bound.length < c.args)
    (h2 : callableWF c = true) (h3 : listWFv bound = true) :
    valueWF (Value.papp c bound) = true := by
  simp [valueWF, h1, h2, h3]

theorem execute_callable_WF (s : List Value) (c : Callable) (e : Bool)
    (hs : listWFv s = true) (hc : callableWF c = true) :
    callResultWF (execute_callable s c e) := by
  cases c with
  | closure fn ups => exact ⟨hs, hc⟩
  | ext p a =>
    show callResultWF (if s.length < a + 1 then .panic else .enter s (.ext p a) false)
    by_cases hl : s.length < a + 1
    · rw [if_pos hl]
      trivial
    · rw [if_neg hl]
      exact ⟨hs, hc⟩

theorem cfwu_WF (s : List Value) (args : Nat) (c : Callable) (hs : listWFv s = true)
    (hc : callableWF c = true) :
    callResultWF (call_function_with_upvars s args c.args c) := by
  unfold call_function_with_upvars
  by_cases h1 : args = c.args
  · rw [if_pos h1]
    exact execute_callable_WF s c false hs hc
  · rw [if_neg h1]
    by_cases h2 : args < c.args
    · rw [if_pos h2]
      have hfields : listWFv (s.drop (s.length - args)) = true := listWFv_drop s _ hs
      have hflen : (s.drop (s.length - args)).length < c.args := by
        rw [List.length_drop]
        omega
      have happ := valueWF_papp hflen hc hfields
      have hres : listWFv (s.take (s.length - (args + 1))
          ++ [Value.papp c (s.drop (s.length - args))]) = true := by
        rw [listWFv_append]
        simp [listWFv_take s _ hs, listWFv, happ]
      exact hres
    · rw [if_neg h2]
      have ht := listWFv_take s (s.length - (args - c.args)) hs
      have hstack : listWFv
          ((s.take (s.length - (args - c.args))).take
              ((s.take (s.length - (args - c.args))).length - c.args - 1)
            ++ Value.data 0 (s.drop (s.length - (args - c.args)))
              :: (s.take (s.length - (args - c.args))).drop
                ((s.take (s.length - (args - c.args))).length - c.args - 1)) = true := by
        rw [listWFv_append, listWFv_cons]
        simp [listWFv_take _ _ ht, listWFv_drop _ _ ht, valueWF, listWFv_drop s _ hs]
      exact execute_callable_WF _ c true hstack hc

theorem do_call_WF (s : List Value) (args : Nat) (hs : listWFv s = true) :
    callResultWF (do_call s args) := by
  unfold do_call
  split
  · trivial
  · split
    · rename_i p a heq
      exact cfwu_WF s args (.ext p a) hs (by simp [callableWF])
    · rename_i fn ups heq
      have hv := valueWF_of_getq heq hs
      have hups : callableWF (Callable.closure fn ups) = true := by
        simp only [callableWF]
        simpa [valueWF] using hv
      exact cfwu_WF s args (.closure fn ups) hs hups
    · rename_i fn bound heq
      have hv := valueWF_of_getq heq hs
      simp only [valueWF, Bool.and_eq_true, decide_eq_true_eq] at hv
      obtain ⟨⟨hlt, hcw⟩, hbound⟩ := hv
      have hstack : listWFv (s.take (s.length - args) ++ bound
          ++ s.drop (s.length - args)) = true := by
        rw [listWFv_append, listWFv_append]
        simp [listWFv_take s _ hs, listWFv_drop s _ hs, hbound]
      exact cfwu_WF _ (bound.length + args) fn hstack hcw
    · trivial
    · trivial

theorem binop_some_WF {α β : Type} {fromV : Value → Option α} {toV : β → Value}
    {f : α → α → Option β} {s s1 : List Value}
    (h : binop fromV toV f s = some s1) (hs : listWFv s = true)
    (htoV : ∀ b, valueWF (toV b) = true) : listWFv s1 = true := by
  unfold binop at h
  split at h
  · split at h
    · split at h
      · injection h with h
        subst h
        rw [listWFv_append]
        simp [listWFv_dropLast _ (listWFv_dropLast _ hs), listWFv, htoV]
      · simp at h
    · simp at h
  · simp at h

theorem listWFv_push (t : List Value) (v : Value) (h1 : listWFv t = true)
    (h2 : valueWF v = true) : listWFv (t ++ [v]) = true := by
  rw [listWFv_append]
  simp [listWFv, h1, h2]

theorem execInstr_WF (ctx : ExecCtx) (instr : Instruction) (s : List Value) (idx : Nat)
    (hctx : ctxWF ctx) (hs : listWFv s = true) : stepResultWF (execInstr ctx instr s idx) := by
  obtain ⟨hg, hu⟩ := hctx
  cases instr with
  | Push i =>
    simp only [execInstr]
    split
    · rename_i v heq
      exact listWFv_push s v hs (valueWF_of_getq heq hs)
    · trivial
  | PushInt n =>
    simp only [execInstr]
    exact listWFv_push s _ hs (by simp [valueWF])
  | PushFloat b =>
    simp only [execInstr]
    exact listWFv_push s _ hs (by simp [valueWF])
  | PushString k =>
    simp only [execInstr]
    split
    · rename_i t heq
      exact listWFv_push s _ hs (by simp [valueWF])
    · trivial
  | PushGlobal g =>
    simp only [execInstr]
    split
    · rename_i v heq
      exact listWFv_push s v hs (valueWF_of_getq heq hg)
    · trivial
  | PushUpVar i =>
    simp only [execInstr]
    split
    · rename_i v heq
      exact listWFv_push s v hs (valueWF_of_getq heq hu)
    · trivial
  | Call a =>
    simp only [execInstr]
    exact hs
  | TailCall a =>
    simp only [execInstr]
    exact hs
  | Construct tag a =>
    simp only [execInstr]
    split
    · trivial
    · exact listWFv_push _ _ (listWFv_take s _ hs)
        (by simp only [valueWF]; exact listWFv_drop s _ hs)
  | GetField i =>
    simp only [execInstr]
    split
    · rename_i tag fields heq
      have hfields : listWFv fields = true := by
        have := valueWF_of_getLastq heq hs
        simpa [valueWF] using this
      split
      · rename_i v heq2
        exact listWFv_push _ v (listWFv_dropLast s hs) (valueWF_of_getq heq2 hfields)
      · trivial
    · trivial
    · trivial
  | TestTag t =>
    simp only [execInstr]
    split
    · exact listWFv_push s _ hs (by simp [valueWF])
    · trivial
    · trivial
  | Split =>
    simp only [execInstr]
    split
    · rename_i tag fields heq
      have hfields : listWFv fields = true := by
        have := valueWF_of_getLastq heq hs
        simpa [valueWF] using this
      show listWFv (s.dropLast ++ fields) = true
      rw [listWFv_append]
      simp [listWFv_dropLast s hs, hfields]
    · trivial
    · trivial
  | Jump t =>
    simp only [execInstr]
    exact hs
  | CJump t =>
    simp only [execInstr]
    split
    · exact listWFv_dropLast s hs
    · exact listWFv_dropLast s hs
    · trivial
  | Pop n =>
    simp only [execInstr]
    split
    · trivial
    · exact listWFv_take s _ hs
  | Slide n =>
    simp only [execInstr]
    split
    · rename_i v heq
      split
      · trivial
      · exact listWFv_push _ v (listWFv_take _ _ (listWFv_dropLast s hs))
          (valueWF_of_getLastq heq hs)
    · trivial
  | GetIndex =>
    simp only [execInstr]
    split
    · rename_i ixv arrv heq1 heq2
      split
      · rename_i tag fields i
        have hfields : listWFv fields = true := by
          have := valueWF_of_getLastq heq2 (listWFv_dropLast s hs)
          simpa [valueWF] using this
        split
        · trivial
        · split
          · rename_i v heq3
            exact listWFv_push _ v (listWFv_dropLast _ (listWFv_dropLast s hs))
              (valueWF_of_getq heq3 hfields)
          · trivial
      · trivial
    · trivial
  | SetIndex =>
    simp only [execInstr]
    split
    · split
      · split
        · trivial
        · split
          · exact listWFv_dropLast _ (listWFv_dropLast _ (listWFv_dropLast s hs))
          · trivial
      · trivial
    · trivial
  | MakeClosure fi n =>
    simp only [execInstr]
    split
    · trivial
    · split
      · exact listWFv_push _ _ (listWFv_take s _ hs)
          (by simp only [valueWF]; exact listWFv_drop s _ hs)
      · trivial
  | NewClosure fi n =>
    simp only [execInstr]
    split
    · split
      · exact listWFv_push s _ hs
          (by simp only [valueWF]; exact listWFv_replicate_int n)
      · trivial
    · trivial
  | CloseClosure n =>
    simp only [execInstr]
    split
    · trivial
    · split
      · split
        · trivial
        · exact listWFv_take s _ hs
      · trivial
      · trivial
  | AddInt =>
    simp only [execInstr]
    cases hb : binop fromInt Value.int (fun a b => some (a + b)) s with
    | none => trivial
    | some s1 => exact binop_some_WF hb hs (fun b => by simp [valueWF])
  | SubtractInt =>
    simp only [execInstr]
    cases hb : binop fromInt Value.int (fun a b => some (a - b)) s with
    | none => trivial
    | some s1 => exact binop_some_WF hb hs (fun b => by simp [valueWF])
  | MultiplyInt =>
    simp only [execInstr]
    cases hb : binop fromInt Value.int (fun a b => some (a * b)) s with
    | none => trivial
    | some s1 => exact binop_some_WF hb hs (fun b => by simp [valueWF])
  | DivideInt =>
    simp only [execInstr]
    cases hb : binop fromInt Value.int
        (fun a b => if b = 0 then none else some (Int.tdiv a b)) s with
    | none => trivial
    | some s1 => exact binop_some_WF hb hs (fun b => by simp [valueWF])
  | IntLT =>
    simp only [execInstr]
    cases hb : binop fromInt boolToValue (fun a b => some (decide (a < b))) s with
    | none => trivial
    | some s1 => exact binop_some_WF hb hs (fun b => by simp [boolToValue, valueWF])
  | IntEQ =>
    simp only [execInstr]
    cases hb : binop fromInt boolToValue (fun a b => some (decide (a = b))) s with
    | none => trivial
    | some s1 => exact binop_some_WF hb hs (fun b => by simp [boolToValue, valueWF])
  | AddFloat =>
    simp only [execInstr]
    cases hb : binop fromFloat Value.float (fun a b => some (ctx.fadd a b)) s with
    | none => trivial
    | some s1 => exact binop_some_WF hb hs (fun b => by simp [valueWF])
  | SubtractFloat =>
    simp only [execInstr]
    cases hb : binop fromFloat Value.float (fun a b => some (ctx.fsub a b)) s with
    | none => trivial
    | some s1 => exact binop_some_WF hb hs (fun b => by simp [valueWF])
  | MultiplyFloat =>
    simp only [execInstr]
    cases hb : binop fromFloat Value.float (fun a b => some (ctx.fmul a b)) s with
    | none => trivial
    | some s1 => exact binop_some_WF hb hs (fun b => by simp [valueWF])
  | DivideFloat =>
    simp only [execInstr]
    cases hb : binop fromFloat Value.float (fun a b => some (ctx.fdiv a b)) s with
    | none => trivial
    | some s1 => exact binop_some_WF hb hs (fun b => by simp [valueWF])
  | FloatLT =>
    simp only [execInstr]
    cases hb : binop fromFloat boolToValue (fun a b => some (ctx.flt a b)) s with
    | none => trivial
    | some s1 => exact binop_some_WF hb hs (fun b => by simp [boolToValue, valueWF])
  | FloatEQ =>
    simp only [execInstr]
    cases hb : binop fromFloat boolToValue (fun a b => some (ctx.feq a b)) s with
    | none => trivial
    | some s1 => exact binop_some_WF hb hs (fun b => by simp [boolToValue, valueWF])

theorem execute_return_WF (below frame : List Value) (excess : Bool)
    (hb : listWFv below = true) (hf : listWFv frame = true) :
    returnResultWF (execute_return below frame excess) := by
  unfold execute_return
  split
  · trivial
  · rename_i result heq
    have hres := valueWF_of_getLastq heq hf
    split
    · show returnResultWF
        (match below.dropLast.getLast? with
         | some (Value.data _ fields) =>
             ReturnResult.redispatch (below.dropLast.dropLast ++ result :: fields)
               fields.length
         | _ => ReturnResult.panic)
      split
      · rename_i tag fields heq2
        have hfields : listWFv fields = true := by
          have := valueWF_of_getLastq heq2 (listWFv_dropLast below hb)
          simpa [valueWF] using this
        show listWFv (below.dropLast.dropLast ++ result :: fields) = true
        rw [listWFv_append, listWFv_cons]
        simp [listWFv_dropLast _ (listWFv_dropLast below hb), hres, hfields]
      · trivial
    · show listWFv (below.dropLast ++ [result]) = true
      exact listWFv_push _ result (listWFv_dropLast below hb) hres

theorem tail_call_WF (stack : List Value) (base args : Nat) (excess hasParent : Bool)
    (hs : listWFv stack = true) :
    tcResultWF (tail_call stack base args excess hasParent) := by
  unfold tail_call
  split
  · trivial
  · split
    · split
      · rename_i tag fields heq
        have hfields : listWFv fields = true := by
          have := valueWF_of_getq heq hs
          simpa [valueWF] using this
        have hs1 : listWFv (stack ++ fields) = true := by
          rw [listWFv_append]
          simp [hs, hfields]
        split
        · show listWFv ((stack ++ fields).take _ ++ (stack ++ fields).drop _) = true
          rw [listWFv_append]
          simp [listWFv_take _ _ hs1, listWFv_drop _ _ hs1]
        · trivial
      · trivial
    · split
      · show listWFv (stack.take _ ++ stack.drop _) = true
        rw [listWFv_append]
        simp [listWFv_take _ _ hs, listWFv_drop _ _ hs]
      · trivial

theorem execute_function_finish_WF (below frame : List Value) (hasParent : Bool)
    (status : Status) (hb : listWFv below = true) (hf : listWFv frame = true) :
    fnResultWF (execute_function_finish below frame hasParent status) := by
  unfold execute_function_finish
  split
  · trivial
  · rename_i result heq
    have hres := valueWF_of_getLastq heq hf
    split
    · split
      · show listWFv (below.dropLast ++ [result]) = true
        exact listWFv_push _ result (listWFv_dropLast below hb) hres
      · split <;> trivial
    · trivial

/-- C4: every reachable `PartialApplication` has strictly fewer bound
arguments than its callable's arity.  `listWFv` states the invariant for
every value on a stack (recursively through `Data` fields, closure upvars
and bound arguments); the conjunction shows that each operation of the VM
preserves it: `do_call` (which builds the only `PartialApplication`s, in the
under-application branch of `call_function_with_upvars`, always with
`args < required` arguments), `call_function_with_upvars` itself at the
arity `do_call` passes it, every instruction of the dispatch loop, the
return path, the tail-call path and the foreign-call bridge.  By induction
over any sequence of these operations, a well-formed VM never reaches a
saturated partial application. -/
theorem papp_invariant_preservation_c4 :
    (∀ (s : List Value) (args : Nat), listWFv s = true → callResultWF (do_call s args))
    ∧ (∀ (s : List Value) (args : Nat) (c : Callable), listWFv s = true →
        callableWF c = true → callResultWF (call_function_with_upvars s args c.args c))
    ∧ (∀ (ctx : ExecCtx) (instr : Instruction) (s : List Value) (idx : Nat),
        ctxWF ctx → listWFv s = true → stepResultWF (execInstr ctx instr s idx))
    ∧ (∀ (below frame : List Value) (excess : Bool), listWFv below = true →
        listWFv frame = true → returnResultWF (execute_return below frame excess))
    ∧ (∀ (stack : List Value) (base args : Nat) (excess hasParent : Bool),
        listWFv stack = true → tcResultWF (tail_call stack base args excess hasParent))
    ∧ (∀ (below frame : List Value) (hasParent : Bool) (status : Status),
        listWFv below = true → listWFv frame = true →
        fnResultWF (execute_function_finish below frame hasParent status)) :=
  ⟨fun s args hs => do_call_WF s args hs,
   fun s args c hs hc => cfwu_WF s args c hs hc,
   fun ctx instr s idx hctx hs => execInstr_WF ctx instr s idx hctx hs,
   fun below frame excess hb hf => execute_return_WF below frame excess hb hf,
   fun stack base args excess hp hs => tail_call_WF stack base args excess hp hs,
   fun below frame hp st hb hf => execute_function_finish_WF below frame hp st hb hf⟩

theorem papp_invariant_preservation_c4_witness :
    callResultWF (do_call [Value.closure ⟨0, 2⟩ [], Value.int 5] 1) :=
  papp_invariant_preservation_c4.1 [Value.closure ⟨0, 2⟩ [], Value.int 5] 1
    (by simp [listWFv, valueWF])
